import Mathlib

/-!
# Verification of the SSHA1 salted-digest package

A shallow embedding, over `List Nat` byte sequences, of `ssha1.go` from
`github.com/kristinjeanna/crypto` together with the external collaborators it
uses (the SHA-1 primitive from `crypto/sha1`, hexadecimal encoding from
`encoding/hex`, and standard base64 from `encoding/base64`).  Bytes are
natural numbers below 256; 32-bit machine words are natural numbers reduced
modulo `2 ^ 32` at every operation where Go's `uint32` would overflow.
-/

namespace SSHA1

/-! ## The base hash primitive: SHA-1 (`crypto/sha1`) -/

/-- Left-rotation of a 32-bit word by `n` bits. -/
def rotl (n w : Nat) : Nat :=
  (w * 2 ^ n + w / 2 ^ (32 - n)) % 2 ^ 32

/-- The four initial/derived big-endian bytes of a 32-bit word. -/
def wordBytes (w : Nat) : List Nat :=
  [w / 2 ^ 24 % 256, w / 2 ^ 16 % 256, w / 2 ^ 8 % 256, w % 256]

/-- Big-endian 8-byte encoding of the 64-bit message bit length. -/
def lenBytes (b : Nat) : List Nat :=
  [b / 2 ^ 56 % 256, b / 2 ^ 48 % 256, b / 2 ^ 40 % 256, b / 2 ^ 32 % 256,
   b / 2 ^ 24 % 256, b / 2 ^ 16 % 256, b / 2 ^ 8 % 256, b % 256]

/-- SHA-1 padding for a message of byte length `l`: the byte `0x80`, zero
bytes up to 56 mod 64, then the bit length as a big-endian `uint64`. -/
def shaPad (l : Nat) : List Nat :=
  0x80 :: (List.replicate ((119 - l % 64) % 64) 0 ++ lenBytes (l * 8 % 2 ^ 64))

/-- The 16 initial big-endian 32-bit words of one 64-byte block. -/
def blockWords (b : List Nat) : List Nat :=
  (List.range 16).map fun i =>
    b.getD (4 * i) 0 * 2 ^ 24 + b.getD (4 * i + 1) 0 * 2 ^ 16 +
      b.getD (4 * i + 2) 0 * 2 ^ 8 + b.getD (4 * i + 3) 0

/-- Message-schedule extension: append `k` further words, each the 1-bit left
rotation of the XOR of the words 3, 8, 14 and 16 positions back. -/
def extendW (w : List Nat) : Nat → List Nat
  | 0 => w
  | k + 1 =>
    extendW
      (w ++ [rotl 1 ((w.getD (w.length - 3) 0 ^^^ w.getD (w.length - 8) 0) ^^^
        (w.getD (w.length - 14) 0 ^^^ w.getD (w.length - 16) 0))]) k

/-- The SHA-1 working state: the five 32-bit registers `a`–`e`. -/
abbrev ShaState := Nat × Nat × Nat × Nat × Nat

/-- The round function and round constant for round `i`. -/
def fK (i b c d : Nat) : Nat × Nat :=
  if i < 20 then ((b &&& c) ||| ((b ^^^ 0xffffffff) &&& d), 0x5A827999)
  else if i < 40 then ((b ^^^ c) ^^^ d, 0x6ED9EBA1)
  else if i < 60 then ((b &&& c) ||| ((b &&& d) ||| (c &&& d)), 0x8F1BBCDC)
  else ((b ^^^ c) ^^^ d, 0xCA62C1D6)

/-- One SHA-1 round with message schedule `w` at round index `i`. -/
def roundStep (w : List Nat) (i : Nat) : ShaState → ShaState
  | (a, b, c, d, e) =>
    let fk := fK i b c d
    ((rotl 5 a + fk.1 + e + fk.2 + w.getD i 0) % 2 ^ 32, a, rotl 30 b, c, d)

/-- Apply rounds `80 - k` through `79` to the state. -/
def rounds (w : List Nat) : Nat → ShaState → ShaState
  | 0, st => st
  | k + 1, st => rounds w k (roundStep w (80 - (k + 1)) st)

/-- Compress one 64-byte block into the running hash state. -/
def compress (block : List Nat) (h : ShaState) : ShaState :=
  let w := extendW (blockWords block) 64
  match h, rounds w 80 h with
  | (h0, h1, h2, h3, h4), (a, b, c, d, e) =>
    ((h0 + a) % 2 ^ 32, (h1 + b) % 2 ^ 32, (h2 + c) % 2 ^ 32,
     (h3 + d) % 2 ^ 32, (h4 + e) % 2 ^ 32)

/-- Compress `k` consecutive 64-byte blocks of `l`. -/
def processBlocks : Nat → List Nat → ShaState → ShaState
  | 0, _, st => st
  | k + 1, l, st => processBlocks k (l.drop 64) (compress (l.take 64) st)

/-- The SHA-1 initial state. -/
def shaInit : ShaState := (0x67452301, 0xEFCDAB89, 0x98BADCFE, 0x10325476, 0xC3D2E1F0)

/-- SHA-1 of a byte sequence: pad, compress block by block, and serialise the
five state words big-endian, giving a 20-byte digest. -/
def sha1 (msg : List Nat) : List Nat :=
  let padded := msg ++ shaPad msg.length
  match processBlocks (padded.length / 64) padded shaInit with
  | (h0, h1, h2, h3, h4) =>
    wordBytes h0 ++ wordBytes h1 ++ wordBytes h2 ++ wordBytes h3 ++ wordBytes h4

/-! ## External text encoders (`encoding/hex`, `encoding/base64`)

Modelled from the standard algorithms the spec lists as external
collaborators: lowercase hexadecimal (two characters per byte) and standard
base64 with `=` padding. -/

/-- The lowercase hex digit for a value below 16 (`"0123456789abcdef"`). -/
def hexDig (n : Nat) : Char :=
  if n < 10 then Char.ofNat (48 + n) else Char.ofNat (87 + n)

/-- Lowercase hexadecimal encoding, two characters per byte, no separators. -/
def hexEncode : List Nat → List Char
  | [] => []
  | b :: rest => hexDig (b / 16) :: hexDig (b % 16) :: hexEncode rest

/-- The value of one hex digit character, if it is one. -/
def hexVal (c : Char) : Option Nat :=
  if 48 ≤ c.toNat ∧ c.toNat ≤ 57 then some (c.toNat - 48)
  else if 97 ≤ c.toNat ∧ c.toNat ≤ 102 then some (c.toNat - 87)
  else none

/-- Hexadecimal decoding of an even-length digit string back to bytes. -/
def hexDecode : List Char → Option (List Nat)
  | [] => some []
  | [_] => none
  | c1 :: c2 :: rest => do
    let v1 ← hexVal c1
    let v2 ← hexVal c2
    let tail ← hexDecode rest
    some ((v1 * 16 + v2) :: tail)

/-- The standard base64 alphabet character for an index below 64
(`A`–`Z`, `a`–`z`, `0`–`9`, `+`, `/`). -/
def b64Char (n : Nat) : Char :=
  if n < 26 then Char.ofNat (65 + n)
  else if n < 52 then Char.ofNat (97 + (n - 26))
  else if n < 62 then Char.ofNat (48 + (n - 52))
  else if n = 62 then ('+')
  else ('/')

/-- The base64 padding character. -/
def padChar : Char := ('=')

/-- Standard base64 encoding with padding: three bytes become four alphabet
characters; a final byte becomes two characters and `==`; a final pair of
bytes becomes three characters and `=`. -/
def b64Encode : List Nat → List Char
  | b1 :: b2 :: b3 :: rest =>
    b64Char (b1 / 4) :: b64Char (b1 % 4 * 16 + b2 / 16) ::
      b64Char (b2 % 16 * 4 + b3 / 64) :: b64Char (b3 % 64) :: b64Encode rest
  | [b1, b2] =>
    [b64Char (b1 / 4), b64Char (b1 % 4 * 16 + b2 / 16), b64Char (b2 % 16 * 4), padChar]
  | [b1] => [b64Char (b1 / 4), b64Char (b1 % 4 * 16), padChar, padChar]
  | [] => []

/-- The index of one base64 alphabet character, if it is one. -/
def b64Val (c : Char) : Option Nat :=
  if 65 ≤ c.toNat ∧ c.toNat ≤ 90 then some (c.toNat - 65)
  else if 97 ≤ c.toNat ∧ c.toNat ≤ 122 then some (c.toNat - 97 + 26)
  else if 48 ≤ c.toNat ∧ c.toNat ≤ 57 then some (c.toNat - 48 + 52)
  else if c = ('+') then some 62
  else if c = ('/') then some 63
  else none

/-- Standard base64 decoding of a padded encoding back to bytes. -/
def b64Decode : List Char → Option (List Nat)
  | [] => some []
  | c1 :: c2 :: c3 :: c4 :: rest =>
    if c3 = padChar ∧ c4 = padChar ∧ rest = [] then do
      let v1 ← b64Val c1
      let v2 ← b64Val c2
      some [v1 * 4 + v2 / 16]
    else if c4 = padChar ∧ rest = [] then do
      let v1 ← b64Val c1
      let v2 ← b64Val c2
      let v3 ← b64Val c3
      some [v1 * 4 + v2 / 16, v2 % 16 * 16 + v3 / 4]
    else do
      let v1 ← b64Val c1
      let v2 ← b64Val c2
      let v3 ← b64Val c3
      let v4 ← b64Val c4
      let tail ← b64Decode rest
      some ((v1 * 4 + v2 / 16) :: (v2 % 16 * 16 + v3 / 4) :: (v3 % 4 * 64 + v4) :: tail)
  | _ => none

/-! ## The `ssha1` package -/

/-- `sha1.Size`: the byte length of a SHA-1 digest. -/
def sha1Size : Nat := 20

/-- `DefaultNumSaltBytes`: salt size used by `New()`. -/
def DefaultNumSaltBytes : Nat := 20

/-- `MinSaltBytes`: minimum allowed number of salt bytes. -/
def MinSaltBytes : Nat := 1

/-- `BlockSize`: block size of the underlying SHA-1 hash in bytes. -/
def BlockSize : Nat := 64

/-- The three error values the package creates with `errors.New`, named after
the Go message constants (`errMsgSaltTooShort`, `errMsgSliceTooShortSha1`,
`errMsgSliceTooShortSsha1`). -/
inductive Err where
  | saltTooShort
  | sliceTooShortSha1
  | sliceTooShortSsha1
deriving DecidableEq

/-- The Go error message of each error value. -/
def Err.message : Err → String
  | .saltTooShort => "invalid salt length, must be at least 1 byte"
  | .sliceTooShortSha1 => "slice too short for a SHA-1 hash"
  | .sliceTooShortSsha1 => "slice too short to be a SSHA1 hash"

/-- The `digest` struct: the accumulated plaintext bytes (`internal`) and the
attached salt. -/
structure digest where
  internal : List Nat
  salt : List Nat
deriving DecidableEq

instance : DecidableEq (Except Err (List Nat)) := fun a b =>
  match a, b with
  | .ok x, .ok y => decidable_of_iff (x = y) (by simp)
  | .ok _, .error _ => .isFalse (fun h => Except.noConfusion h)
  | .error _, .ok _ => .isFalse (fun h => Except.noConfusion h)
  | .error x, .error y => decidable_of_iff (x = y) (by simp)

instance : DecidableEq (Except Err Bool) := fun a b =>
  match a, b with
  | .ok x, .ok y => decidable_of_iff (x = y) (by simp)
  | .ok _, .error _ => .isFalse (fun h => Except.noConfusion h)
  | .error _, .ok _ => .isFalse (fun h => Except.noConfusion h)
  | .error x, .error y => decidable_of_iff (x = y) (by simp)

instance : DecidableEq (Except Err digest) := fun a b =>
  match a, b with
  | .ok x, .ok y => decidable_of_iff (x = y) (by simp)
  | .ok _, .error _ => .isFalse (fun h => Except.noConfusion h)
  | .error _, .ok _ => .isFalse (fun h => Except.noConfusion h)
  | .error x, .error y => decidable_of_iff (x = y) (by simp)

/-- `digest.Size`: the number of bytes `Sum` will return. -/
def digest.Size (d : digest) : Nat := sha1Size + d.salt.length

/-- `digest.BlockSize`: the underlying block size. -/
def digest.BlockSize (_ : digest) : Nat := SSHA1.BlockSize

/-- Abbreviation for the builtin string type, needed where the method name
`digest.String` would shadow it. -/
abbrev Str := String

/-- `digest.Reset`: clears the accumulated bytes; the salt is unchanged. -/
def digest.Reset (d : digest) : digest := { d with internal := [] }

/-- `digest.Write`: appends `p` to the accumulated bytes and returns the new
state together with the byte count it reports (it never errors). -/
def digest.Write (d : digest) (p : List Nat) : digest × Nat :=
  ({ d with internal := d.internal ++ p }, p.length)

/-- `digest.Sum`: appends `sha1(internal ++ salt) ++ salt` to `b`.  The Go
method assigns no field of the receiver, so its state-passing form leaves the
digest unchanged; `SumOp` below records that explicitly. -/
def digest.Sum (d : digest) (b : List Nat) : List Nat :=
  b ++ (sha1 (d.internal ++ d.salt) ++ d.salt)

/-- `digest.Sum` in explicit state-passing form: output plus resulting state. -/
def digest.SumOp (d : digest) (b : List Nat) : List Nat × digest :=
  (d.Sum b, d)

/-- `digest.HexString`: the hexadecimal string of the combined digest. -/
def digest.HexString (d : digest) : String :=
  String.mk (hexEncode (d.Sum []))

/-- `digest.HexString` in explicit state-passing form. -/
def digest.HexStringOp (d : digest) : String × digest :=
  (d.HexString, d)

/-- `digest.String`: the base64 string of the combined digest, prefixed with
the literal `"\x7bSSHA\x7d"` (per `outputFmt`). -/
def digest.String (d : digest) : String :=
  String.mk ("\x7bSSHA\x7d".data ++ b64Encode (d.Sum []))

/-- `digest.String` in explicit state-passing form. -/
def digest.StringOp (d : digest) : Str × digest :=
  (d.String, d)

/-- A random byte source standing for `crypto/rand`: `rand n` is the byte
sequence a successful `rand.Read` of an `n`-byte buffer produces.  The source
is modelled as total; theorems that need it assume `(rand n).length = n`,
which is what a non-erroring `rand.Read` guarantees. -/
abbrev RandSource := Nat → List Nat

/-- `New`: a fresh digest with a generated salt of the default size. -/
def New (rand : RandSource) : Except Err digest :=
  .ok { internal := [], salt := rand DefaultNumSaltBytes }

/-- `NewWithSalt`: a fresh digest with the given salt, which must have at
least `MinSaltBytes` bytes. -/
def NewWithSalt (salt : List Nat) : Except Err digest :=
  if salt.length < MinSaltBytes then .error .saltTooShort
  else .ok { internal := [], salt := salt }

/-- `NewForSaltSize`: a fresh digest with a generated salt of the given size,
which must be at least `MinSaltBytes` (the Go parameter is a signed `int`). -/
def NewForSaltSize (numSaltBytes : Int) (rand : RandSource) : Except Err digest :=
  if numSaltBytes < (MinSaltBytes : Int) then .error .saltTooShort
  else .ok { internal := [], salt := rand numSaltBytes.toNat }

/-- `Sum(data, salt)`: the SSHA1 checksum of `data`.  A `none` salt models a
nil Go slice and selects `New()`; `some` models a non-nil slice (possibly
empty) and selects `NewWithSalt`. -/
def Sum (data : List Nat) (salt : Option (List Nat)) (rand : RandSource) :
    Except Err (List Nat) :=
  match (match salt with | none => New rand | some s => NewWithSalt s) with
  | .error e => .error e
  | .ok d => .ok (((d.Write data).1).Sum [])

/-- `Validate(ssha1Hash, sample)`: `ok b` models Go's `(b, nil)`; `error e`
models `(false, e)`. -/
def Validate (ssha1Hash sample : List Nat) : Except Err Bool :=
  let length := ssha1Hash.length
  if length < sha1Size then .error .sliceTooShortSha1
  else
    let saltSize := length - sha1Size
    if saltSize = 0 then .error .sliceTooShortSsha1
    else
      let salt := ssha1Hash.drop (length - saltSize)
      match NewWithSalt salt with
      | .error e => .error e
      | .ok d =>
        let d := (d.Write sample).1
        let result := d.Sum []
        .ok (ssha1Hash == result)

/-- Byte values of an ASCII string, for concrete test vectors. -/
def strBytes (s : String) : List Nat := s.data.map Char.toNat

/-! ## General lemmas about the embedding -/

/-- A SHA-1 digest has exactly `sha1.Size = 20` bytes. -/
theorem sha1_length (m : List Nat) : (sha1 m).length = 20 := by
  unfold sha1
  rcases processBlocks ((m ++ shaPad m.length).length / 64) (m ++ shaPad m.length) shaInit
    with ⟨h0, h1, h2, h3, h4⟩
  simp [wordBytes]

/-- Every entry of a SHA-1 digest is a byte value. -/
theorem sha1_bytes (m : List Nat) : ∀ x ∈ sha1 m, x < 256 := by
  unfold sha1
  rcases processBlocks ((m ++ shaPad m.length).length / 64) (m ++ shaPad m.length) shaInit
    with ⟨h0, h1, h2, h3, h4⟩
  simp only [wordBytes, List.mem_append, List.mem_cons, List.not_mem_nil, or_false]
  intro x h
  repeat rcases h with h | h
  all_goals omega

/-- The combined digest `d.Sum []` is the 20 hash bytes followed by the salt. -/
theorem sum_drop (d : digest) : (d.Sum []).drop 20 = d.salt := by
  have h := sha1_length (d.internal ++ d.salt)
  simp only [digest.Sum, List.nil_append]
  rw [← h, List.drop_left]

/-- The first 20 bytes of the combined digest are the SHA-1 hash. -/
theorem sum_take (d : digest) : (d.Sum []).take 20 = sha1 (d.internal ++ d.salt) := by
  have h := sha1_length (d.internal ++ d.salt)
  simp only [digest.Sum, List.nil_append]
  rw [← h, List.take_left]

/-- The combined digest length is `20 + len(salt)`. -/
theorem sum_length (d : digest) : (d.Sum []).length = 20 + d.salt.length := by
  simp [digest.Sum, sha1_length]

/-- `Validate` on a combined value of length at least 21: extract the trailing
bytes as the salt, recompute, and compare full-length. -/
theorem Validate_eq (c sample : List Nat) (h : 21 ≤ c.length) :
    Validate c sample = .ok (c == sha1 (sample ++ c.drop 20) ++ c.drop 20) := by
  have h1 : ¬ c.length < sha1Size := by simp only [sha1Size]; omega
  have h2 : ¬ (c.length - sha1Size = 0) := by simp only [sha1Size]; omega
  have h3 : c.length - (c.length - sha1Size) = 20 := by simp only [sha1Size]; omega
  have h4 : ¬ ((c.drop 20).length < MinSaltBytes) := by
    simp only [MinSaltBytes, List.length_drop]; omega
  simp only [Validate, h1, if_false, h2, NewWithSalt, h3, h4, digest.Write, digest.Sum,
    List.nil_append]

/-- Decoding a hex digit produced for a value below 16 recovers the value. -/
theorem hexVal_hexDig (n : Nat) (h : n < 16) : hexVal (hexDig n) = some n := by
  interval_cases n <;> rfl

/-- Hexadecimal decoding inverts hexadecimal encoding on byte sequences. -/
theorem hexDecode_hexEncode (l : List Nat) (h : ∀ x ∈ l, x < 256) :
    hexDecode (hexEncode l) = some l := by
  induction l with
  | nil => rfl
  | cons b rest ih =>
    have hb : b < 256 := h b (by simp)
    rw [hexEncode, hexDecode, hexVal_hexDig (b / 16) (by omega),
      hexVal_hexDig (b % 16) (by omega), ih (fun x hx => h x (by simp [hx]))]
    simp only [Option.bind_eq_bind, Option.some_bind, Option.some.injEq, List.cons.injEq]
    exact ⟨by omega, trivial⟩

/-- Decoding a base64 alphabet character of an index below 64 recovers it. -/
theorem b64Val_b64Char (n : Nat) (h : n < 64) : b64Val (b64Char n) = some n := by
  interval_cases n <;> rfl

/-- No base64 alphabet character of an index below 64 is the padding mark. -/
theorem b64Char_ne_pad (n : Nat) (h : n < 64) : b64Char n ≠ padChar := by
  interval_cases n <;> decide

/-- Base64 decoding inverts base64 encoding on byte sequences. -/
theorem b64Decode_b64Encode : ∀ l : List Nat, (∀ x ∈ l, x < 256) →
    b64Decode (b64Encode l) = some l
  | [], _ => rfl
  | [b1], h => by
    have hb1 : b1 < 256 := h b1 (by simp)
    rw [b64Encode, b64Decode, if_pos ⟨rfl, rfl, rfl⟩,
      b64Val_b64Char (b1 / 4) (by omega), b64Val_b64Char (b1 % 4 * 16) (by omega)]
    simp only [Option.bind_eq_bind, Option.some_bind, Option.some.injEq, List.cons.injEq]
    exact ⟨by omega, trivial⟩
  | [b1, b2], h => by
    have hb1 : b1 < 256 := h b1 (by simp)
    have hb2 : b2 < 256 := h b2 (by simp)
    rw [b64Encode, b64Decode,
      if_neg (fun hc => b64Char_ne_pad (b2 % 16 * 4) (by omega) hc.1),
      if_pos ⟨rfl, rfl⟩, b64Val_b64Char (b1 / 4) (by omega),
      b64Val_b64Char (b1 % 4 * 16 + b2 / 16) (by omega),
      b64Val_b64Char (b2 % 16 * 4) (by omega)]
    simp only [Option.bind_eq_bind, Option.some_bind, Option.some.injEq, List.cons.injEq]
    exact ⟨by omega, by omega, trivial⟩
  | b1 :: b2 :: b3 :: rest, h => by
    have hb1 : b1 < 256 := h b1 (by simp)
    have hb2 : b2 < 256 := h b2 (by simp)
    have hb3 : b3 < 256 := h b3 (by simp)
    have ih := b64Decode_b64Encode rest (fun x hx => h x (by simp [hx]))
    rw [b64Encode, b64Decode,
      if_neg (fun hc => b64Char_ne_pad (b2 % 16 * 4 + b3 / 64) (by omega) hc.1),
      if_neg (fun hc => b64Char_ne_pad (b3 % 64) (by omega) hc.1),
      b64Val_b64Char (b1 / 4) (by omega), b64Val_b64Char (b1 % 4 * 16 + b2 / 16) (by omega),
      b64Val_b64Char (b2 % 16 * 4 + b3 / 64) (by omega), b64Val_b64Char (b3 % 64) (by omega),
      ih]
    simp only [Option.bind_eq_bind, Option.some_bind, Option.some.injEq, List.cons.injEq]
    exact ⟨by omega, by omega, by omega, trivial⟩

/-- The three-way case split of `Validate` on the combined length. -/
theorem validate_trichotomy (c sample : List Nat) :
    (c.length < 20 → Validate c sample = .error .sliceTooShortSha1) ∧
    (c.length = 20 → Validate c sample = .error .sliceTooShortSsha1) ∧
    (21 ≤ c.length →
      Validate c sample = .ok (c == sha1 (sample ++ c.drop 20) ++ c.drop 20)) := by
  refine ⟨fun h => ?_, fun h => ?_, Validate_eq c sample⟩
  · have h1 : c.length < sha1Size := by simp only [sha1Size]; omega
    simp only [Validate, h1, if_true]
  · have h1 : ¬ c.length < sha1Size := by simp only [sha1Size]; omega
    have h2 : c.length - sha1Size = 0 := by simp only [sha1Size]; omega
    simp only [Validate, h1, if_false, h2, if_true]

/-! ## A counting argument about the base hash

`sha1` maps the `256 ^ 21` byte sequences of length 21 into the `256 ^ 20`
possible 20-byte digests, so it has collisions; consequently the spec's
unconditional negative-validation property cannot hold. -/

/-- The natural number a byte sequence denotes in base 256, big-endian. -/
def ofBytes (l : List Nat) : Nat := l.foldl (fun a b => a * 256 + b) 0

/-- The `k`-byte big-endian base-256 encoding of a natural number. -/
def natToBytes : Nat → Nat → List Nat
  | 0, _ => []
  | k + 1, n => natToBytes k (n / 256) ++ [n % 256]

theorem natToBytes_length (k n : Nat) : (natToBytes k n).length = k := by
  induction k generalizing n with
  | zero => rfl
  | succ k ih => simp [natToBytes, ih]

theorem natToBytes_bytes (k n : Nat) : ∀ x ∈ natToBytes k n, x < 256 := by
  induction k generalizing n with
  | zero => simp [natToBytes]
  | succ k ih =>
    intro x hx
    rcases List.mem_append.1 hx with h | h
    · exact ih _ x h
    · simp only [List.mem_singleton] at h
      omega

theorem ofBytes_append_singleton (l : List Nat) (b : Nat) :
    ofBytes (l ++ [b]) = ofBytes l * 256 + b := by
  simp [ofBytes, List.foldl_append]

theorem ofBytes_natToBytes (k n : Nat) (h : n < 256 ^ k) :
    ofBytes (natToBytes k n) = n := by
  induction k generalizing n with
  | zero =>
    simp only [Nat.pow_zero, Nat.lt_one_iff] at h
    simp [natToBytes, ofBytes, h]
  | succ k ih =>
    rw [natToBytes, ofBytes_append_singleton, ih (n / 256) (by rw [Nat.pow_succ] at h; omega)]
    omega

theorem natToBytes_ofBytes (l : List Nat) (h : ∀ x ∈ l, x < 256) :
    natToBytes l.length (ofBytes l) = l := by
  induction l using List.reverseRecOn with
  | nil => rfl
  | append_singleton l b ih =>
    have hb : b < 256 := h b (by simp)
    rw [List.length_append, List.length_singleton, natToBytes, ofBytes_append_singleton]
    have e1 : (ofBytes l * 256 + b) / 256 = ofBytes l := by omega
    have e2 : (ofBytes l * 256 + b) % 256 = b := by omega
    rw [e1, e2, ih (fun x hx => h x (by simp [hx]))]

/-- `ofBytes` is injective on byte sequences of one fixed length. -/
theorem ofBytes_inj (l1 l2 : List Nat) (h1 : ∀ x ∈ l1, x < 256) (h2 : ∀ x ∈ l2, x < 256)
    (hlen : l1.length = l2.length) (h : ofBytes l1 = ofBytes l2) : l1 = l2 := by
  rw [← natToBytes_ofBytes l1 h1, ← natToBytes_ofBytes l2 h2, hlen, h]

theorem ofBytes_lt (l : List Nat) (h : ∀ x ∈ l, x < 256) : ofBytes l < 256 ^ l.length := by
  induction l using List.reverseRecOn with
  | nil => simp [ofBytes]
  | append_singleton l b ih =>
    have hb : b < 256 := h b (by simp)
    have hl := ih (fun x hx => h x (by simp [hx]))
    rw [ofBytes_append_singleton, List.length_append, List.length_singleton, Nat.pow_succ]
    omega

/-- By counting, some two distinct plaintexts collide under the salted hash:
there are more length-21 messages than 20-byte digests. -/
theorem sha1_exists_collision (s : List Nat) :
    ∃ p1 p2 : List Nat, p1 ≠ p2 ∧ sha1 (p1 ++ s) = sha1 (p2 ++ s) := by
  have hcard : Fintype.card (Fin (256 ^ 20)) < Fintype.card (Fin (256 ^ 21)) := by
    rw [Fintype.card_fin, Fintype.card_fin]
    exact Nat.pow_lt_pow_right (by norm_num) (by norm_num)
  obtain ⟨n1, n2, hne, heq⟩ := Fintype.exists_ne_map_eq_of_card_lt
    (fun n : Fin (256 ^ 21) =>
      (⟨ofBytes (sha1 (natToBytes 21 n.val ++ s)), by
        have hlt := ofBytes_lt (sha1 (natToBytes 21 n.val ++ s))
          (sha1_bytes (natToBytes 21 n.val ++ s))
        rwa [sha1_length] at hlt⟩ : Fin (256 ^ 20))) hcard
  refine ⟨natToBytes 21 n1.val, natToBytes 21 n2.val, ?_, ?_⟩
  · intro hcontra
    apply hne
    apply Fin.ext
    have := congrArg ofBytes hcontra
    rwa [ofBytes_natToBytes 21 n1.val n1.isLt, ofBytes_natToBytes 21 n2.val n2.isLt] at this
  · have hv : ofBytes (sha1 (natToBytes 21 n1.val ++ s)) =
        ofBytes (sha1 (natToBytes 21 n2.val ++ s)) := congrArg Fin.val heq
    exact ofBytes_inj _ _ (sha1_bytes _) (sha1_bytes _)
      (by rw [sha1_length, sha1_length]) hv

/-! ## The claims -/

/-- C1: for every plaintext `p` and salt `s` with `len(s) ≥ 1`, validating the
combined digest `Sum(p, s)` against the same plaintext `p` succeeds with
`(true, nil)`. -/
theorem roundtrip_validate (p s : List Nat) (rand : RandSource) (v : List Nat)
    (hs : 1 ≤ s.length) (hv : Sum p (some s) rand = .ok v) :
    Validate v p = .ok true := by
  have hnew : NewWithSalt s = .ok ⟨[], s⟩ := by
    rw [NewWithSalt, if_neg (by simp only [MinSaltBytes]; omega)]
  rw [Sum, hnew] at hv
  simp only [digest.Write, digest.Sum, List.nil_append, Except.ok.injEq] at hv
  subst hv
  rw [Validate_eq _ _ (by rw [List.length_append, sha1_length]; omega)]
  have hdrop : (sha1 (p ++ s) ++ s).drop 20 = s := by
    rw [← sha1_length (p ++ s), List.drop_left]
  rw [hdrop]
  simp

set_option maxRecDepth 40000 in
/-- Witness for C1 at `p = [3]`, `s = [7]`. -/
theorem roundtrip_validate_witness :
    Validate (sha1 ([3] ++ [7]) ++ [7]) [3] = .ok true :=
  roundtrip_validate [3] [7] (fun n => List.replicate n 0) (sha1 ([3] ++ [7]) ++ [7])
    (by decide) rfl

/-- C2: the combined digest `d.Sum []` is exactly
`sha1(internal ++ salt) ++ salt`: hash of the accumulated bytes followed by
the salt verbatim, of total length `20 + len(salt)`. -/
theorem sum_combined_layout (d : digest) (_hs : 1 ≤ d.salt.length) :
    d.Sum [] = sha1 (d.internal ++ d.salt) ++ d.salt ∧
    (d.Sum []).take 20 = sha1 (d.internal ++ d.salt) ∧
    (d.Sum []).drop 20 = d.salt ∧
    (d.Sum []).length = 20 + d.salt.length :=
  ⟨rfl, sum_take d, sum_drop d, sum_length d⟩

/-- Witness for C2 at accumulated bytes `[1]` and salt `[2]`. -/
theorem sum_combined_layout_witness :
    digest.Sum ⟨[1], [2]⟩ [] = sha1 ([1] ++ [2]) ++ [2] ∧
    (digest.Sum ⟨[1], [2]⟩ []).take 20 = sha1 ([1] ++ [2]) ∧
    (digest.Sum ⟨[1], [2]⟩ []).drop 20 = [2] ∧
    (digest.Sum ⟨[1], [2]⟩ []).length = 20 + ([2] : List Nat).length :=
  sum_combined_layout ⟨[1], [2]⟩ (by decide)

/-- C3: `Validate` errors exactly on combined lengths at most 20: with the
too-short-for-SHA-1 error iff the length is below 20, with the
missing-salt error iff the length is exactly 20, and it returns an
error-free boolean iff the length is at least 21. -/
theorem validate_error_iff (c sample : List Nat) :
    (Validate c sample = .error .sliceTooShortSha1 ↔ c.length < 20) ∧
    (Validate c sample = .error .sliceTooShortSsha1 ↔ c.length = 20) ∧
    ((∃ b, Validate c sample = .ok b) ↔ 21 ≤ c.length) := by
  obtain ⟨ha, hb, hc⟩ := validate_trichotomy c sample
  rcases Nat.lt_trichotomy c.length 20 with h | h | h
  · rw [ha h]
    exact ⟨by simp [h], by simp; omega, by simp; omega⟩
  · rw [hb h]
    exact ⟨by simp; omega, by simp [h], by simp; omega⟩
  · rw [hc (by omega)]
    exact ⟨by simp; omega, by simp; omega, by simp; omega⟩

/-- C4: on a combined value of length at least 21, `Validate` extracts the
trailing bytes past position 20 as the salt, recomputes the combined digest
of the sample under that salt, and answers `true` exactly when the
recomputation equals the whole input, salt suffix included. -/
theorem validate_full_compare (c sample : List Nat) (h : 21 ≤ c.length) :
    Validate c sample = .ok (c == sha1 (sample ++ c.drop 20) ++ c.drop 20) ∧
    (Validate c sample = .ok true ↔ c = sha1 (sample ++ c.drop 20) ++ c.drop 20) := by
  refine ⟨Validate_eq c sample h, ?_⟩
  rw [Validate_eq c sample h]
  simp

/-- Witness for C4 at a 21-byte combined value. -/
theorem validate_full_compare_witness :
    Validate (List.replicate 21 0) [] =
      .ok (List.replicate 21 0 ==
        sha1 ([] ++ (List.replicate 21 0).drop 20) ++ (List.replicate 21 0).drop 20) ∧
    (Validate (List.replicate 21 0) [] = .ok true ↔
      List.replicate 21 0 =
        sha1 ([] ++ (List.replicate 21 0).drop 20) ++ (List.replicate 21 0).drop 20) :=
  validate_full_compare (List.replicate 21 0) [] (by decide)

/-- C5: a nil salt makes `Sum` generate a default-length 20-byte salt and
succeed; a non-nil zero-length salt makes `Sum` fail with the
invalid-salt-length error; `NewWithSalt` fails with that error exactly on a
zero-length salt and `NewForSaltSize` exactly on a size below 1, both
succeeding on every length at least 1. -/
theorem salt_length_policy (p s : List Nat) (n : Int) (rand : RandSource)
    (hr : (rand DefaultNumSaltBytes).length = DefaultNumSaltBytes) :
    (Sum p none rand = .ok (sha1 (p ++ rand 20) ++ rand 20) ∧ (rand 20).length = 20) ∧
    Sum p (some []) rand = .error .saltTooShort ∧
    (NewWithSalt s = .error .saltTooShort ↔ s.length = 0) ∧
    (1 ≤ s.length → NewWithSalt s = .ok ⟨[], s⟩) ∧
    (NewForSaltSize n rand = .error .saltTooShort ↔ n < 1) ∧
    ((1 : Int) ≤ n → NewForSaltSize n rand = .ok ⟨[], rand n.toNat⟩) := by
  refine ⟨⟨?_, ?_⟩, ?_, ?_, ?_, ?_, ?_⟩
  · rw [Sum, New]
    simp [digest.Write, digest.Sum, DefaultNumSaltBytes]
  · simpa only [DefaultNumSaltBytes] using hr
  · rw [Sum, NewWithSalt, if_pos (by simp [MinSaltBytes])]
  · rw [NewWithSalt]
    rcases Nat.eq_zero_or_pos s.length with h | h
    · rw [if_pos (by simp only [MinSaltBytes]; omega)]
      exact iff_of_true rfl h
    · rw [if_neg (by simp only [MinSaltBytes]; omega)]
      exact iff_of_false (by simp) (by omega)
  · intro h
    rw [NewWithSalt, if_neg (by simp only [MinSaltBytes]; omega)]
  · rw [NewForSaltSize]
    rcases lt_or_le n 1 with h | h
    · rw [if_pos (by simp only [MinSaltBytes]; exact_mod_cast h)]
      exact iff_of_true rfl h
    · rw [if_neg (by simp only [MinSaltBytes]; omega)]
      exact iff_of_false (by simp) (by omega)
  · intro h
    rw [NewForSaltSize, if_neg (by simp only [MinSaltBytes]; omega)]

set_option maxRecDepth 40000 in
/-- Witness for C5 at `p = [1]`, `s = [2]`, `n = 3`, and the all-zero
random source. -/
theorem salt_length_policy_witness :
    (Sum [1] none (fun k => List.replicate k 0) =
        .ok (sha1 ([1] ++ List.replicate 20 0) ++ List.replicate 20 0) ∧
      (List.replicate 20 (0 : Nat)).length = 20) ∧
    Sum [1] (some []) (fun k => List.replicate k 0) = .error .saltTooShort ∧
    (NewWithSalt [2] = .error .saltTooShort ↔ ([2] : List Nat).length = 0) ∧
    (1 ≤ ([2] : List Nat).length → NewWithSalt [2] = .ok ⟨[], [2]⟩) ∧
    (NewForSaltSize 3 (fun k => List.replicate k 0) = .error .saltTooShort ↔ (3 : Int) < 1) ∧
    ((1 : Int) ≤ 3 → NewForSaltSize 3 (fun k => List.replicate k 0) =
        .ok ⟨[], List.replicate (3 : Int).toNat 0⟩) :=
  salt_length_policy [1] [2] 3 (fun k => List.replicate k 0) (by decide)

/-- C6, refuted as stated: the spec's unconditional negative-validation
property would make the salted SHA-1 hash injective in the plaintext, which
the counting argument `sha1_exists_collision` rules out. -/
theorem negative_validation_counterexample :
    ¬ ∀ (p1 p2 s : List Nat) (rand : RandSource) (v : List Nat),
        p1 ≠ p2 → 1 ≤ s.length → Sum p1 (some s) rand = .ok v →
        Validate v p2 = .ok false := by
  intro hclaim
  obtain ⟨p1, p2, hne, heq⟩ := sha1_exists_collision [0]
  have hsum : Sum p1 (some [0]) (fun n => List.replicate n 0) =
      .ok (sha1 (p1 ++ [0]) ++ [0]) := by
    rw [Sum, NewWithSalt, if_neg (by simp [MinSaltBytes])]
    simp [digest.Write, digest.Sum]
  have hval := hclaim p1 p2 [0] (fun n => List.replicate n 0) _ hne (by decide) hsum
  rw [Validate_eq _ _ (by simp [sha1_length])] at hval
  have hdrop : (sha1 (p1 ++ [0]) ++ [0]).drop 20 = [0] := by
    rw [← sha1_length (p1 ++ [0]), List.drop_left]
  rw [hdrop, heq] at hval
  simp at hval

/-- C6, amended: for distinct plaintexts `p1 ≠ p2` and a salt `s` with
`len(s) ≥ 1`, validating `Sum(p1, s)` against `p2` returns `(false, nil)`
whenever `p1 ++ s` and `p2 ++ s` do not collide under the base SHA-1 hash
(unconditional "false" would deny the existence of SHA-1 collisions). -/
theorem negative_validation (p1 p2 s : List Nat) (rand : RandSource) (v : List Nat)
    (_hne : p1 ≠ p2) (hcol : sha1 (p1 ++ s) ≠ sha1 (p2 ++ s)) (hs : 1 ≤ s.length)
    (hv : Sum p1 (some s) rand = .ok v) :
    Validate v p2 = .ok false := by
  have hnew : NewWithSalt s = .ok ⟨[], s⟩ := by
    rw [NewWithSalt, if_neg (by simp only [MinSaltBytes]; omega)]
  rw [Sum, hnew] at hv
  simp only [digest.Write, digest.Sum, List.nil_append, Except.ok.injEq] at hv
  subst hv
  rw [Validate_eq _ _ (by rw [List.length_append, sha1_length]; omega)]
  have hdrop : (sha1 (p1 ++ s) ++ s).drop 20 = s := by
    rw [← sha1_length (p1 ++ s), List.drop_left]
  rw [hdrop]
  simp only [Except.ok.injEq, beq_eq_false_iff_ne, ne_eq]
  intro hcontra
  exact hcol (List.append_cancel_right hcontra)

set_option maxRecDepth 40000 in
/-- Witness for the amended C6 at `p1 = [0]`, `p2 = [1]`, `s = [2]`, whose
salted hashes indeed differ. -/
theorem negative_validation_witness :
    Validate (sha1 ([0] ++ [2]) ++ [2]) [1] = .ok false :=
  negative_validation [0] [1] [2] (fun n => List.replicate n 0)
    (sha1 ([0] ++ [2]) ++ [2]) (by decide) (by decide) (by decide) rfl

/-- C7: writing `A`, resetting, then writing `B` gives the same combined
digest as a fresh instance with the same salt that only writes `B`; `Reset`
empties the accumulated buffer and keeps the salt. -/
theorem reset_write_semantics (d : digest) (A B : List Nat) :
    ((((d.Write A).1.Reset).Write B).1).Sum [] =
      (((digest.mk [] d.salt).Write B).1).Sum [] ∧
    (d.Reset).internal = [] ∧ (d.Reset).salt = d.salt := by
  simp [digest.Write, digest.Reset, digest.Sum]

/-- C8: the read operations `Sum`, `HexString` and `String` leave the digest
state (accumulated bytes and salt) unchanged, and repeated or interleaved
calls on the same state return identical results. -/
theorem read_ops_preserve_state (d : digest) (b : List Nat) :
    (d.SumOp b).2 = d ∧ (d.HexStringOp).2 = d ∧ (d.StringOp).2 = d ∧
    ((d.SumOp b).2.SumOp b).1 = (d.SumOp b).1 ∧
    ((d.SumOp b).2.HexStringOp).1 = (d.HexStringOp).1 ∧
    ((d.HexStringOp).2.StringOp).1 = (d.StringOp).1 ∧
    ((d.StringOp).2.SumOp b).1 = (d.SumOp b).1 :=
  ⟨rfl, rfl, rfl, rfl, rfl, rfl, rfl⟩

/-- C9: `HexString` is the lowercase hex encoding of `Sum []` and `String` is
the `"\x7bSSHA\x7d"`-prefixed padded base64 encoding of `Sum []`; hex-decoding
the former, and base64-decoding the latter after stripping the 6-character
prefix, both recover exactly the combined digest bytes. -/
theorem encodings_decode_to_sum (d : digest) (hsalt : ∀ x ∈ d.salt, x < 256) :
    d.HexString = String.mk (hexEncode (d.Sum [])) ∧
    d.String = String.mk ("\x7bSSHA\x7d".data ++ b64Encode (d.Sum [])) ∧
    hexDecode (d.HexString).data = some (d.Sum []) ∧
    (d.String).data.take 6 = "\x7bSSHA\x7d".data ∧
    b64Decode ((d.String).data.drop 6) = some (d.Sum []) := by
  have hbytes : ∀ x ∈ d.Sum [], x < 256 := by
    intro x hx
    simp only [digest.Sum, List.nil_append, List.mem_append] at hx
    rcases hx with h | h
    · exact sha1_bytes _ x h
    · exact hsalt x h
  have hlen : ("\x7bSSHA\x7d".data).length = 6 := rfl
  refine ⟨rfl, rfl, hexDecode_hexEncode _ hbytes, ?_, ?_⟩
  · show ("\x7bSSHA\x7d".data ++ b64Encode (d.Sum [])).take 6 = _
    rw [← hlen, List.take_left]
  · show b64Decode (("\x7bSSHA\x7d".data ++ b64Encode (d.Sum [])).drop 6) = _
    rw [← hlen, List.drop_left]
    exact b64Decode_b64Encode _ hbytes

/-- Witness for C9 at accumulated bytes `[1]` and salt `[2]`. -/
theorem encodings_decode_to_sum_witness :
    digest.HexString ⟨[1], [2]⟩ = String.mk (hexEncode (digest.Sum ⟨[1], [2]⟩ [])) ∧
    digest.String ⟨[1], [2]⟩ =
      String.mk ("\x7bSSHA\x7d".data ++ b64Encode (digest.Sum ⟨[1], [2]⟩ [])) ∧
    hexDecode (digest.HexString ⟨[1], [2]⟩).data = some (digest.Sum ⟨[1], [2]⟩ []) ∧
    (digest.String ⟨[1], [2]⟩).data.take 6 = "\x7bSSHA\x7d".data ∧
    b64Decode ((digest.String ⟨[1], [2]⟩).data.drop 6) = some (digest.Sum ⟨[1], [2]⟩ []) :=
  encodings_decode_to_sum ⟨[1], [2]⟩ (by decide)

/-- C10: `Validate` never returns the invalid-salt-length error: whenever it
reaches the reconstruction step the extracted salt is nonempty, so every
outcome is one of the two length errors or an error-free boolean. -/
theorem validate_never_salt_error (c sample : List Nat) :
    Validate c sample ≠ .error .saltTooShort ∧
    (Validate c sample = .error .sliceTooShortSha1 ∨
     Validate c sample = .error .sliceTooShortSsha1 ∨
     ∃ b, Validate c sample = .ok b) := by
  obtain ⟨ha, hb, hc⟩ := validate_trichotomy c sample
  rcases Nat.lt_trichotomy c.length 20 with h | h | h
  · rw [ha h]
    exact ⟨by simp, Or.inl rfl⟩
  · rw [hb h]
    exact ⟨by simp, Or.inr (Or.inl rfl)⟩
  · rw [hc (by omega)]
    exact ⟨by simp, Or.inr (Or.inr ⟨_, rfl⟩)⟩

/-! ## The spec's concrete vectors, checked against the embedding -/

set_option maxRecDepth 100000 in
/-- The classic SHA-1 test vector for `"abc"`. -/
theorem sha1_vector_abc :
    String.mk (hexEncode (sha1 (strBytes "abc"))) =
      "a9993e364706816aba3e25717850c26c9cd0d89d" := by decide

set_option maxRecDepth 100000 in
/-- First Sum vector of the spec: plaintext
`"supercalifragilisticexpialidocious"`, salt `"n4pggXWL"`. -/
theorem spec_vector_sum_1 :
    String.mk (hexEncode ((Sum (strBytes "supercalifragilisticexpialidocious")
        (some (strBytes "n4pggXWL")) (fun n => List.replicate n 0)).toOption.getD [])) =
      "8eadde532169b6908034886be119c9f0ca61801e6e3470676758574c" := by decide

set_option maxRecDepth 100000 in
/-- Second Sum vector of the spec: plaintext `"abcdefghijklmnopqrstuvwxyz"`,
salt `"K218iReB"`. -/
theorem spec_vector_sum_2 :
    String.mk (hexEncode ((Sum (strBytes "abcdefghijklmnopqrstuvwxyz")
        (some (strBytes "K218iReB")) (fun n => List.replicate n 0)).toOption.getD [])) =
      "4ced2536edce6706cccf0c14a10a939022f6b0614b32313869526542" := by decide

set_option maxRecDepth 100000 in
/-- Validation vector of the spec: the combined digest with salt `"abcdefg"`
validates `"1234567890"` and rejects `"123456789"`. -/
theorem spec_vector_validate :
    (hexDecode "8417680c09644df743d7cea1366fbe13a31b2d5e61626364656667".data).map
        (fun c => (Validate c (strBytes "1234567890"), Validate c (strBytes "123456789"))) =
      some (.ok true, .ok false) := by decide

set_option maxRecDepth 100000 in
/-- Length-error vectors of the spec: an 11-byte input is too short for a
SHA-1 hash; an exactly-20-byte input has no room for a salt. -/
theorem spec_vector_length_errors :
    (hexDecode "520d41b29f891bbaccf31d".data).map (fun c => Validate c []) =
        some (.error .sliceTooShortSha1) ∧
    (hexDecode "9ab50f27d4201db9b28483ba83c48ebafbb2aa17".data).map (fun c => Validate c []) =
        some (.error .sliceTooShortSsha1) := by constructor <;> decide

end SSHA1
